import Mathlib

/-!
Verification of the core numerical and string routines of the
`spine_anaplot_tools` repository against its specification.

The embedding below models:

* `extract_parameter_name`, `get_avg_fracunc` and
  `convert_smearing_to_response` from `src/spineplot/numu_incl/helpers.py`;
* the group-ordering loop of `SpinePurity.draw` from `src/spineplot/purity.py`;
* the binomial confidence-interval reduction used by `SpinePurity.draw`
  (the body of `SpinePurity.reduce` is not part of the sources, so it is
  modelled from the specification's description of the binomial quantile
  method).

Python strings are modelled as `List Char`; Python floats are modelled by
exact rational arithmetic `ℚ`; Python exceptions are modelled by explicit
error values in an `Except` result.
-/

namespace SpineAnaplot

/-! ### A model of the Python string primitives used by `helpers.py` -/

/-- `leadsWith pat s` is true when the character list `pat` is an initial
segment of `s` (helper for substring search). -/
def leadsWith : List Char → List Char → Bool
  | [], _ => true
  | _ :: _, [] => false
  | a :: as, b :: bs => a == b && leadsWith as bs

/-- Python's substring containment `pat in s`: true when `pat` occurs as a
contiguous substring of `s` (any position, including the empty suffix). -/
def strContains (s pat : List Char) : Bool :=
  match s with
  | [] => leadsWith pat []
  | _ :: rest => leadsWith pat s || strContains rest pat

/-- Scanning step of `replaceAll`, with an explicit fuel argument so that the
recursion is structural (the fuel never runs out when it starts at the length
of the scanned string, since every step consumes at least one character). -/
def replaceAllFuel (pat rep : List Char) : ℕ → List Char → List Char
  | 0, s => s
  | _ + 1, [] => []
  | fuel + 1, c :: rest =>
    if 0 < pat.length ∧ leadsWith pat (c :: rest) = true then
      rep ++ replaceAllFuel pat rep fuel (rest.drop (pat.length - 1))
    else
      c :: replaceAllFuel pat rep fuel rest

/-- Python's `s.replace(pat, rep)`: replace every non-overlapping occurrence
of `pat` in `s` by `rep`, scanning left to right.  The sources only ever call
this with a non-empty `pat`; for an empty `pat` this model returns `s`
unchanged. -/
def replaceAll (pat rep : List Char) (s : List Char) : List Char :=
  replaceAllFuel pat rep s.length s

/-- Python's `s.split(sep)` for a single-character separator: split at every
occurrence of `sep`, keeping empty fragments (so `"".split` gives `[""]`). -/
def splitOnChar (sep : Char) : List Char → List (List Char)
  | [] => [[]]
  | c :: rest =>
    match splitOnChar sep rest with
    | [] => [[]]
    | g :: gs => if c == sep then [] :: g :: gs else (c :: g) :: gs

/-- Python's `sep.join(parts)`. -/
def joinWith (sep : List Char) : List (List Char) → List Char
  | [] => []
  | [x] => x
  | x :: y :: ys => x ++ sep ++ joinWith sep (y :: ys)

/-- The loop `while key[-1] == '_': key = key[:-1]` from
`extract_parameter_name`: removes trailing underscores one at a time and
fails with Python's `IndexError` (modelled as `none`) as soon as the string
it inspects is empty. -/
def stripTrailingUnderscores (s : List Char) : Option (List Char) :=
  let t := (s.reverse.dropWhile (fun c => c == '_')).reverse
  if t.isEmpty then none else some t

/-! ### `extract_parameter_name` (src/spineplot/numu_incl/helpers.py, lines 3-49) -/

/-- The Python exceptions that `extract_parameter_name` can raise.  In
Python's exception hierarchy, `IndexError` is a subclass of `LookupError`,
while `UnboundLocalError` (an unassigned local variable being read) is a
subclass of `NameError`, which is not a `LookupError`. -/
inductive PyExc
  | unboundLocalError
  | indexError
deriving DecidableEq, Repr

deriving instance DecidableEq for Except

/-- Whether the exception belongs to Python's `LookupError` class:
`IndexError` does, `UnboundLocalError` does not. -/
def PyExc.isLookupErrClass : PyExc → Bool
  | .unboundLocalError => false
  | .indexError => true

/-- The literal `".csv"`. -/
def csvTok : List Char := ".csv".toList

/-- The literal `"stat"`. -/
def statTok : List Char := "stat".toList

/-- The literal `";1"`. -/
def semi1Tok : List Char := ";1".toList

/-- The literal `"reco_leading_muon_"`. -/
def recoMuonTok : List Char := "reco_leading_muon_".toList

/-- The literal `"true_leading_muon_"`. -/
def trueMuonTok : List Char := "true_leading_muon_".toList

/-- The literal `"momentum_gev"`. -/
def momentumTok : List Char := "momentum_gev".toList

/-- The literal `"costheta"`. -/
def costhetaTok : List Char := "costheta".toList

/-- The literal `"multisigma_"`. -/
def multisigmaTok : List Char := "multisigma_".toList

/-- The literal `"multisim_"`. -/
def multisimTok : List Char := "multisim_".toList

/-- The literal `"nsigma_"`. -/
def nsigmaTok : List Char := "nsigma_".toList

/-- The literal `"GENIEReWeight_SBN_v1_"`. -/
def genieTok : List Char := "GENIEReWeight_SBN_v1_".toList

/-- The `.csv` shortening step of `extract_parameter_name`: if `".csv"`
occurs in the key, remove it, split the remainder on `'_'`, drop the last
token and rejoin with `'_'`; otherwise keep the key. -/
def csvShorten (key : List Char) : List Char :=
  if strContains key csvTok then
    joinWith ['_'] ((splitOnChar '_' (replaceAll csvTok [] key)).dropLast)
  else key

/-- The ordered sequence of literal-token removals applied to a non-`stat`
key: first strip `";1"`, then the eight fixed substrings, each applied to
the already-shortened string. -/
def stripKeyTokens (key : List Char) : List Char :=
  replaceAll genieTok []
    (replaceAll nsigmaTok []
      (replaceAll multisimTok []
        (replaceAll multisigmaTok []
          (replaceAll costhetaTok []
            (replaceAll momentumTok []
              (replaceAll trueMuonTok []
                (replaceAll recoMuonTok []
                  (replaceAll semi1Tok [] key))))))))

/-- `extract_parameter_name(key, variables)` from
`src/spineplot/numu_incl/helpers.py`.  Mirrors the Python control flow:

1. `.csv` shortening;
2. the `for var in variables` loop assigns `var_name` to the first variable
   occurring as a substring of the (possibly shortened) key, otherwise
   `var_name` stays unassigned and reading it raises `UnboundLocalError`;
3. a key containing `"stat"` returns `('stat', var_name)` immediately;
4. otherwise `";1"` and the eight literal substrings are removed in order,
   trailing underscores are stripped (raising `IndexError` when the key
   becomes empty), and `(key, var_name)` is returned. -/
def extract_parameter_name (key : List Char) (vars : List (List Char)) :
    Except PyExc (List Char × List Char) :=
  if strContains (csvShorten key) statTok then
    match vars.find? (fun v => strContains (csvShorten key) v) with
    | some v => .ok (statTok, v)
    | none => .error .unboundLocalError
  else
    match stripTrailingUnderscores (stripKeyTokens (csvShorten key)),
        vars.find? (fun v => strContains (csvShorten key) v) with
    | none, _ => .error .indexError
    | some key3, some v => .ok (key3, v)
    | some _, none => .error .unboundLocalError

/-! ### Claims C6-C9: behavior of `extract_parameter_name` -/

set_option maxHeartbeats 1600000 in
/-- Claim C9: there is an input key that is entirely consumed by the `.csv`
shortening, the `";1"` strip and the eight token removals — for example
`"multisigma_costheta;1"` with variables `["costheta"]` — on which the
trailing-underscore stripping loop of `extract_parameter_name` meets the
empty string and the call fails with an index error. -/
theorem C9_empty_key_index_error :
    extract_parameter_name "multisigma_costheta;1".toList ["costheta".toList]
        = .error .indexError ∧
      stripTrailingUnderscores
        (stripKeyTokens (csvShorten "multisigma_costheta;1".toList)) = none := by
  decide

set_option maxHeartbeats 1600000 in
/-- Claim C6 counterexample: the claim asserts that every key without
`"stat"` for which some variable matches leads to a normal return of the
token-stripped canonical name, but `"multisigma_momentum_gev;1"` with
variables `["momentum_gev"]` (no `"stat"`, variable matches) is entirely
consumed by the removals and the call fails with an index error instead of
returning a value. -/
theorem C6_counterexample :
    extract_parameter_name "multisigma_momentum_gev;1".toList ["momentum_gev".toList]
        = .error .indexError ∧
      strContains (csvShorten "multisigma_momentum_gev;1".toList) statTok = false ∧
      strContains (csvShorten "multisigma_momentum_gev;1".toList) "momentum_gev".toList
        = true := by
  decide

/-- Claim C6 (amended): for every key not containing `"stat"` after any
`.csv` shortening, for which some supplied variable matches, and whose
token-stripped form still contains a character other than trailing
underscores, `extract_parameter_name` returns the key after removing
`".csv"` with the last `"_"`-separated token, stripping `";1"`, removing the
eight literal substrings in order, and stripping trailing underscores —
paired with the first matching variable. -/
theorem C6_canonical_name (key : List Char) (vars : List (List Char))
    (v res : List Char)
    (hstat : strContains (csvShorten key) statTok = false)
    (hv : (vars.find? fun w => strContains (csvShorten key) w) = some v)
    (hres : stripTrailingUnderscores (stripKeyTokens (csvShorten key)) = some res) :
    extract_parameter_name key vars = .ok (res, v) := by
  unfold extract_parameter_name
  simp only [hstat, hv, hres, Bool.false_eq_true, if_false]

set_option maxHeartbeats 1600000 in
/-- Witness for `C6_canonical_name`: the specification's own example,
`resolve("GENIEReWeight_SBN_v1_multisigma_foo_momentum_gev;1",
["costheta","momentum_gev"]) = ("foo", "momentum_gev")`. -/
theorem C6_canonical_name_witness :
    extract_parameter_name "GENIEReWeight_SBN_v1_multisigma_foo_momentum_gev;1".toList
        ["costheta".toList, "momentum_gev".toList]
      = .ok ("foo".toList, "momentum_gev".toList) :=
  C6_canonical_name _ _ _ _ (by decide) (by decide) (by decide)

/-- Claim C7: for every key in which `"stat"` occurs (after any `.csv`
shortening) and for which some supplied variable matches, the function
returns exactly `("stat", variable_name)` with no further token stripping. -/
theorem C7_stat_short_circuit (key : List Char) (vars : List (List Char))
    (v : List Char)
    (hstat : strContains (csvShorten key) statTok = true)
    (hv : (vars.find? fun w => strContains (csvShorten key) w) = some v) :
    extract_parameter_name key vars = .ok (statTok, v) := by
  unfold extract_parameter_name
  simp only [hstat, hv, if_true]

set_option maxHeartbeats 1600000 in
/-- Witness for `C7_stat_short_circuit`: the specification's own example,
`resolve("stat_costheta_cv.csv", ["costheta","momentum_gev"]) =
("stat", "costheta")`. -/
theorem C7_stat_short_circuit_witness :
    extract_parameter_name "stat_costheta_cv.csv".toList
        ["costheta".toList, "momentum_gev".toList]
      = .ok ("stat".toList, "costheta".toList) :=
  C7_stat_short_circuit _ _ _ (by decide) (by decide)

set_option maxHeartbeats 1600000 in
/-- Claim C8 counterexample: on the key `"foo"` with variables `["zzz"]`
no variable matches, and the call fails with an `UnboundLocalError`
(a `NameError`-class exception in Python), not with a `LookupError`-class
condition as the claim states. -/
theorem C8_counterexample :
    extract_parameter_name "foo".toList ["zzz".toList]
        = .error .unboundLocalError ∧
      PyExc.isLookupErrClass .unboundLocalError = false := by
  decide

/-- Claim C8 (amended): whenever `extract_parameter_name` returns, the
returned variable name is the first variable in caller-provided order that
occurs as a substring of the (possibly `.csv`-shortened) key; and when no
supplied variable occurs as a substring, the call fails with an explicit
error — an unbound-local (`NameError`-class) error, or an index error when
the stripped key is also empty — rather than returning a result. -/
theorem C8_first_match_or_error (key : List Char) (vars : List (List Char)) :
    (∀ res v, extract_parameter_name key vars = .ok (res, v) →
        (vars.find? fun w => strContains (csvShorten key) w) = some v) ∧
      ((∀ v ∈ vars, strContains (csvShorten key) v = false) →
        ∃ e, extract_parameter_name key vars = .error e) := by
  constructor
  · intro res v hok
    rcases hfind : vars.find? fun w => strContains (csvShorten key) w with _ | v'
    · rcases hstat : strContains (csvShorten key) statTok
      · rcases hstrip : stripTrailingUnderscores (stripKeyTokens (csvShorten key)) with
          _ | key3
        · simp [extract_parameter_name, hfind, hstat, hstrip] at hok
        · simp [extract_parameter_name, hfind, hstat, hstrip] at hok
      · simp [extract_parameter_name, hfind, hstat] at hok
    · rcases hstat : strContains (csvShorten key) statTok
      · rcases hstrip : stripTrailingUnderscores (stripKeyTokens (csvShorten key)) with
          _ | key3
        · simp [extract_parameter_name, hfind, hstat, hstrip] at hok
        · simp [extract_parameter_name, hfind, hstat, hstrip] at hok
          simp [hok.2]
      · simp [extract_parameter_name, hfind, hstat] at hok
        simp [hok.2]
  · intro hnone
    have hfind : (vars.find? fun w => strContains (csvShorten key) w) = none := by
      apply List.find?_eq_none.mpr
      intro v hv
      simp [hnone v hv]
    rcases hstat : strContains (csvShorten key) statTok
    · rcases hstrip : stripTrailingUnderscores (stripKeyTokens (csvShorten key)) with
        _ | key3
      · exact ⟨.indexError, by simp [extract_parameter_name, hfind, hstat, hstrip]⟩
      · exact ⟨.unboundLocalError, by simp [extract_parameter_name, hfind, hstat, hstrip]⟩
    · exact ⟨.unboundLocalError, by simp [extract_parameter_name, hfind, hstat]⟩

/-- Witness for `C8_first_match_or_error` at a concrete input: with key
`"qq"` and variables `["zz"]` no variable matches and the call fails. -/
theorem C8_first_match_or_error_witness :
    ∃ e, extract_parameter_name "qq".toList ["zz".toList] = .error e :=
  (C8_first_match_or_error _ _).2 (by decide)

/-! ### `get_avg_fracunc` (src/spineplot/numu_incl/helpers.py, lines 51-69) -/

/-- The failures of `get_avg_fracunc`: the `assert` on mismatched lengths
(an `AssertionError` whose message reports both lengths, modelled by carrying
both lengths as data), and the `ZeroDivisionError` that `np.average` raises
when the weights sum to zero. -/
inductive AvgErr
  | lengthMismatch (nFracUncs nCv : ℕ)
  | zeroWeightSum
deriving DecidableEq, Repr

/-- `get_avg_fracunc(frac_uncs, cv)` from
`src/spineplot/numu_incl/helpers.py`: assert equal lengths, then return
`np.average(frac_uncs, weights=cv) = sum(frac_uncs[i]*cv[i]) / sum(cv[i])`
(`np.average` raises `ZeroDivisionError` when the weights sum to zero). -/
def get_avg_fracunc (frac_uncs cv : List ℚ) : Except AvgErr ℚ :=
  if frac_uncs.length ≠ cv.length then
    .error (.lengthMismatch frac_uncs.length cv.length)
  else if cv.sum = 0 then .error .zeroWeightSum
  else .ok ((List.zipWith (· * ·) frac_uncs cv).sum / cv.sum)

/-! ### Claims C4-C5: behavior of `get_avg_fracunc` -/

/-- Claim C4: for equal-length inputs with a nonzero weight sum,
`get_avg_fracunc` returns `sum(frac_uncs[i]*cv[i]) / sum(cv[i])`; for inputs
of unequal lengths it fails with the assertion-class error reporting both
lengths. -/
theorem C4_weighted_average (frac_uncs cv : List ℚ) :
    (frac_uncs.length = cv.length → cv.sum ≠ 0 →
        get_avg_fracunc frac_uncs cv
          = .ok ((List.zipWith (· * ·) frac_uncs cv).sum / cv.sum)) ∧
      (frac_uncs.length ≠ cv.length →
        get_avg_fracunc frac_uncs cv
          = .error (.lengthMismatch frac_uncs.length cv.length)) := by
  constructor
  · intro hlen hsum
    rw [get_avg_fracunc, if_neg (by simp [hlen]), if_neg hsum]
  · intro hlen
    rw [get_avg_fracunc, if_pos hlen]

/-- Witness for `C4_weighted_average`: both components at concrete inputs
(`[1/2, 3/2]` against weights `[1, 3]` averages to `5/4`; lengths `3` vs `4`
report the mismatch). -/
theorem C4_weighted_average_witness :
    get_avg_fracunc [(1:ℚ)/2, 3/2] [1, 3]
        = .ok ((List.zipWith (· * ·) [(1:ℚ)/2, 3/2] [1, 3]).sum / ([(1:ℚ), 3]).sum) ∧
      get_avg_fracunc [(1:ℚ), 1, 1] [1, 1, 1, 1]
        = .error (.lengthMismatch 3 4) :=
  ⟨(C4_weighted_average _ _).1 (by norm_num) (by norm_num),
    (C4_weighted_average _ _).2 (by norm_num)⟩

/-- Claim C5 counterexample: the claim quantifies over all weight lists with
positive total, but with the negative weight list `[-1, 2]` (sum `1 > 0`)
against values `[0, 1]`, the returned average is `2`, which exceeds the
maximum `1` of the value list. -/
theorem C5_counterexample :
    get_avg_fracunc [(0:ℚ), 1] [-1, 2] = .ok 2 ∧
      ([(-1:ℚ), 2]).sum = 1 ∧
      ([(0:ℚ), 1]).maximum = (1 : ℚ) ∧
      ¬ ((2:ℚ) ≤ (1:ℚ)) := by
  refine ⟨?_, by norm_num, by simp [List.maximum_cons], by norm_num⟩
  rw [get_avg_fracunc, if_neg (by norm_num), if_neg (by norm_num)]
  norm_num

/-- For nonnegative weights, a weighted sum is bounded by an upper bound of
the values times the total weight. -/
theorem zipWith_mul_sum_le (M : ℚ) :
    ∀ (f c : List ℚ), f.length = c.length → (∀ x ∈ c, 0 ≤ x) →
      (∀ x ∈ f, x ≤ M) → (List.zipWith (· * ·) f c).sum ≤ M * c.sum
  | [], [], _, _, _ => by simp
  | [], _ :: _, hlen, _, _ => by simp at hlen
  | _ :: _, [], hlen, _, _ => by simp at hlen
  | a :: f, b :: c, hlen, hnn, hub => by
    simp only [List.zipWith_cons_cons, List.sum_cons]
    have h1 : (List.zipWith (· * ·) f c).sum ≤ M * c.sum :=
      zipWith_mul_sum_le M f c (by simpa using hlen)
        (fun x hx => hnn x (List.mem_cons_of_mem _ hx))
        (fun x hx => hub x (List.mem_cons_of_mem _ hx))
    have h2 : a * b ≤ M * b :=
      mul_le_mul_of_nonneg_right (hub a (List.mem_cons_self _ _))
        (hnn b (List.mem_cons_self _ _))
    calc a * b + (List.zipWith (· * ·) f c).sum
        ≤ M * b + M * c.sum := add_le_add h2 h1
      _ = M * (b + c.sum) := by ring

/-- For nonnegative weights, a weighted sum is bounded below by a lower
bound of the values times the total weight. -/
theorem le_zipWith_mul_sum (m : ℚ) :
    ∀ (f c : List ℚ), f.length = c.length → (∀ x ∈ c, 0 ≤ x) →
      (∀ x ∈ f, m ≤ x) → m * c.sum ≤ (List.zipWith (· * ·) f c).sum
  | [], [], _, _, _ => by simp
  | [], _ :: _, hlen, _, _ => by simp at hlen
  | _ :: _, [], hlen, _, _ => by simp at hlen
  | a :: f, b :: c, hlen, hnn, hlb => by
    simp only [List.zipWith_cons_cons, List.sum_cons]
    have h1 : m * c.sum ≤ (List.zipWith (· * ·) f c).sum :=
      le_zipWith_mul_sum m f c (by simpa using hlen)
        (fun x hx => hnn x (List.mem_cons_of_mem _ hx))
        (fun x hx => hlb x (List.mem_cons_of_mem _ hx))
    have h2 : m * b ≤ a * b :=
      mul_le_mul_of_nonneg_right (hlb a (List.mem_cons_self _ _))
        (hnn b (List.mem_cons_self _ _))
    calc m * (b + c.sum) = m * b + m * c.sum := by ring
      _ ≤ a * b + (List.zipWith (· * ·) f c).sum := add_le_add h2 h1

/-- Claim C5 (amended): for equal-length inputs whose weights are
nonnegative with positive sum, the value returned by `get_avg_fracunc` lies
between the minimum and the maximum of `frac_uncs` inclusive. -/
theorem C5_average_between_min_max (frac_uncs cv : List ℚ)
    (hlen : frac_uncs.length = cv.length)
    (hnn : ∀ x ∈ cv, 0 ≤ x) (hpos : 0 < cv.sum) :
    ∃ μ, get_avg_fracunc frac_uncs cv = .ok μ ∧
      frac_uncs.minimum ≤ (μ : WithTop ℚ) ∧
      (μ : WithBot ℚ) ≤ frac_uncs.maximum := by
  have hne : frac_uncs ≠ [] := by
    intro h
    subst h
    rw [List.length_nil] at hlen
    rw [List.eq_nil_of_length_eq_zero hlen.symm] at hpos
    simp at hpos
  refine ⟨(List.zipWith (· * ·) frac_uncs cv).sum / cv.sum,
    (C4_weighted_average _ _).1 hlen (ne_of_gt hpos), ?_, ?_⟩
  · rcases hmin : frac_uncs.minimum with _ | m
    · exact absurd (List.minimum_eq_top.mp hmin) hne
    · have hm : ∀ x ∈ frac_uncs, m ≤ x := fun x hx =>
        List.minimum_le_of_mem hx hmin
      have hle : m * cv.sum ≤ (List.zipWith (· * ·) frac_uncs cv).sum :=
        le_zipWith_mul_sum m frac_uncs cv hlen hnn hm
      have hq : m ≤ (List.zipWith (· * ·) frac_uncs cv).sum / cv.sum :=
        (le_div_iff₀ hpos).mpr hle
      exact WithTop.coe_le_coe.mpr hq
  · rcases hmax : frac_uncs.maximum with _ | M
    · exact absurd (List.maximum_eq_bot.mp hmax) hne
    · have hM : ∀ x ∈ frac_uncs, x ≤ M := fun x hx =>
        List.le_maximum_of_mem hx hmax
      have hle : (List.zipWith (· * ·) frac_uncs cv).sum ≤ M * cv.sum :=
        zipWith_mul_sum_le M frac_uncs cv hlen hnn hM
      have hq : (List.zipWith (· * ·) frac_uncs cv).sum / cv.sum ≤ M :=
        (div_le_iff₀ hpos).mpr hle
      exact WithBot.coe_le_coe.mpr hq

/-- Witness for `C5_average_between_min_max` at the concrete input
`frac_uncs = [1/2, 3/2]`, `cv = [1, 3]`. -/
theorem C5_average_between_min_max_witness :
    ∃ μ, get_avg_fracunc [(1:ℚ)/2, 3/2] [1, 3] = .ok μ ∧
      ([(1:ℚ)/2, 3/2]).minimum ≤ (μ : WithTop ℚ) ∧
      (μ : WithBot ℚ) ≤ ([(1:ℚ)/2, 3/2]).maximum :=
  C5_average_between_min_max [(1:ℚ)/2, 3/2] [1, 3] (by norm_num)
    (by norm_num) (by norm_num)

/-! ### `convert_smearing_to_response` (src/spineplot/numu_incl/helpers.py, lines 71-90) -/

/-- `np.sum(smearing, axis=0)`: the sum of column `j` over the row index,
taken over the `N` rows of the matrix. -/
def colSum (N : ℕ) (m : ℕ → ℕ → ℚ) (j : ℕ) : ℚ :=
  ∑ i ∈ Finset.range N, m i j

/-- `np.divide(num, den, out=np.zeros_like(..), where = den != 0)` on one
entry: the quotient where the divisor is nonzero, and the untouched output
value `0` where it is zero. -/
def divWhere (num den : ℚ) : ℚ :=
  if den = 0 then 0 else num / den

/-- `convert_smearing_to_response(smearing, eff)` from
`src/spineplot/numu_incl/helpers.py`, for an `N`-by-`N` matrix:
`denom = np.sum(smearing, axis=0)` (the unscaled column sums, computed before
any efficiency scaling), then
`np.divide(smearing*eff, denom, out=np.zeros_like(smearing), where=denom!=0)`;
numpy broadcasting multiplies entry `(i, j)` by `eff[j]`. -/
def convert_smearing_to_response (N : ℕ) (smearing : ℕ → ℕ → ℚ)
    (eff : ℕ → ℚ) : ℕ → ℕ → ℚ :=
  fun i j => divWhere (smearing i j * eff j) (colSum N smearing j)

/-! ### Claims C2-C3: behavior of `convert_smearing_to_response` -/

/-- Claim C2: entry `(i, j)` of the response matrix is
`smearing[i][j] * eff[j]` divided by the unscaled column sum of column `j`
(the divisor is computed before the efficiency scaling); in particular, for
an all-ones efficiency vector and a smearing matrix whose columns each sum
to `1`, the output equals the input exactly. -/
theorem C2_response_matrix (N : ℕ) (smearing : ℕ → ℕ → ℚ) (eff : ℕ → ℚ) :
    (∀ i j, colSum N smearing j ≠ 0 →
        convert_smearing_to_response N smearing eff i j
          = smearing i j * eff j / colSum N smearing j) ∧
      ((∀ j < N, eff j = 1) → (∀ j < N, colSum N smearing j = 1) →
        ∀ i j, i < N → j < N →
          convert_smearing_to_response N smearing eff i j = smearing i j) := by
  constructor
  · intro i j hcol
    rw [convert_smearing_to_response, divWhere, if_neg hcol]
  · intro heff hcol i j _ hj
    rw [convert_smearing_to_response, divWhere, if_neg (by rw [hcol j hj]; norm_num),
      heff j hj, hcol j hj]
    norm_num

/-- A concrete `2`-by-`2` column-stochastic smearing matrix (each column is
`(1/4, 3/4)`), used for the `C2` witness. -/
def exSmear : ℕ → ℕ → ℚ :=
  fun i _ => if i = 0 then 1/4 else if i = 1 then 3/4 else 0

/-- Witness for `C2_response_matrix`: the identity special case at the
concrete column-stochastic matrix `exSmear` with an all-ones efficiency
vector. -/
theorem C2_response_matrix_witness :
    ∀ i j, i < 2 → j < 2 →
      convert_smearing_to_response 2 exSmear (fun _ => 1) i j = exSmear i j :=
  (C2_response_matrix 2 exSmear (fun _ => 1)).2 (fun _ _ => rfl)
    (fun j _ => by simp [colSum, exSmear, Finset.sum_range_succ]; norm_num)

/-- Claim C3: for every column `j` whose unscaled column sum is exactly
zero, `convert_smearing_to_response` produces an all-zero output column `j`,
returning normally (the `where` guard of `np.divide` leaves the zero-filled
output in place, so no division is attempted and no NaN or Inf arises in
that column). -/
theorem C3_zero_column_guard (N : ℕ) (smearing : ℕ → ℕ → ℚ) (eff : ℕ → ℚ)
    (j : ℕ) (hcol : colSum N smearing j = 0) :
    ∀ i, convert_smearing_to_response N smearing eff i j = 0 := by
  intro i
  rw [convert_smearing_to_response, divWhere, if_pos hcol]

/-- Witness for `C3_zero_column_guard`: a concrete `2`-by-`2` matrix whose
column `1` is `(5, -5)` and so sums to zero; the output column `1` is zero
at both rows. -/
theorem C3_zero_column_guard_witness :
    convert_smearing_to_response 2
        (fun i j => if j = 1 then (if i = 0 then 5 else if i = 1 then -5 else 0) else 1)
        (fun _ => 3) 0 1 = 0 ∧
    convert_smearing_to_response 2
        (fun i j => if j = 1 then (if i = 0 then 5 else if i = 1 then -5 else 0) else 1)
        (fun _ => 3) 1 1 = 0 :=
  ⟨C3_zero_column_guard 2 _ _ 1 (by simp [colSum, Finset.sum_range_succ]) 0,
   C3_zero_column_guard 2 _ _ 1 (by simp [colSum, Finset.sum_range_succ]) 1⟩

/-! ### Group ordering in `SpinePurity.draw` (src/spineplot/purity.py, lines 110-118) -/

/-- The group-collection loop of `SpinePurity.draw`:

`groups = list(); for category in self._categories.values(): if category not
in groups: groups.append(category)`.

A `CategoryMap` is an insertion-ordered mapping, modelled as an association
list whose `values()` is the list of second components. -/
def spineGroups {κ α : Type} [DecidableEq α] (categories : List (κ × α)) :
    List α :=
  (categories.map Prod.snd).foldl
    (fun gs c => if c ∈ gs then gs else gs ++ [c]) []

/-- First-seen-order deduplication as the specification words it: keep each
value's first occurrence, in order of first appearance. -/
def firstSeenDedup {α : Type} [DecidableEq α] : List α → List α
  | [] => []
  | a :: t => a :: firstSeenDedup (t.filter (fun b => decide (b ≠ a)))
termination_by l => l.length
decreasing_by
  simp only [List.length_cons]
  exact Nat.lt_succ_of_le (List.length_filter_le _ _)

/-- The accumulator form of the group-collection loop agrees with first-seen
deduplication relative to an arbitrary already-collected prefix. -/
theorem spineGroups_foldl_eq {α : Type} [DecidableEq α] :
    ∀ (l gs : List α),
      l.foldl (fun gs c => if c ∈ gs then gs else gs ++ [c]) gs
        = gs ++ firstSeenDedup (l.filter (fun b => decide (b ∉ gs)))
  | [], gs => by simp [firstSeenDedup]
  | a :: t, gs => by
    rcases Decidable.em (a ∈ gs) with hmem | hmem
    · rw [List.foldl_cons, if_pos hmem, spineGroups_foldl_eq t gs,
        List.filter_cons_of_neg (by simp [hmem])]
    · rw [List.foldl_cons, if_neg hmem, spineGroups_foldl_eq t (gs ++ [a]),
        List.filter_cons_of_pos (by simp [hmem])]
      rw [firstSeenDedup, List.filter_filter]
      have hpred : List.filter (fun b => decide (b ∉ gs ++ [a])) t
          = List.filter (fun b => decide (b ≠ a) && decide (b ∉ gs)) t := by
        apply List.filter_congr
        intro b _
        simp [List.mem_append, not_or, Bool.and_comm]
      rw [hpred]
      simp
termination_by l _ => l.length
decreasing_by
  all_goals simp only [List.length_cons]
  all_goals omega

/-- Claim C10: for every `CategoryMap`, the group list built by
`SpinePurity.draw` is `CategoryMap.values()` deduplicated while preserving
first-seen order.  `spineGroups` is a pure function of the mapping, so the
result is identical across repeated invocations on the same mapping — in
particular when several category keys map to the same group label. -/
theorem C10_group_order {κ α : Type} [DecidableEq α]
    (categories : List (κ × α)) :
    spineGroups categories = firstSeenDedup (categories.map Prod.snd) := by
  rw [spineGroups, spineGroups_foldl_eq (categories.map Prod.snd) []]
  simp

/-- The binomial probability mass at `i` successes out of `n` trials with
success probability `p`, in exact rational arithmetic. -/
def binomPmf (n : ℕ) (p : ℚ) (i : ℕ) : ℚ :=
  (n.choose i : ℚ) * p ^ i * (1 - p) ^ (n - i)

theorem binomPmf_nonneg {n : ℕ} {p : ℚ} (hp0 : 0 ≤ p) (hp1 : p ≤ 1) (i : ℕ) :
    0 ≤ binomPmf n p i := by
  have h1 : (0:ℚ) ≤ 1 - p := by linarith
  have h2 : (0:ℚ) ≤ (n.choose i : ℚ) := by positivity
  have h3 : (0:ℚ) ≤ p ^ i := pow_nonneg hp0 i
  have h4 : (0:ℚ) ≤ (1 - p) ^ (n - i) := pow_nonneg h1 _
  rw [binomPmf]
  exact mul_nonneg (mul_nonneg h2 h3) h4

theorem binomPmf_sum (n : ℕ) (p : ℚ) :
    ∑ i ∈ Finset.range (n + 1), binomPmf n p i = 1 := by
  have h := add_pow p (1 - p) n
  have h2 : p + (1 - p) = 1 := by ring
  rw [h2, one_pow] at h
  rw [h]
  apply Finset.sum_congr rfl
  intro i _
  rw [binomPmf]
  ring

theorem binomPmf_mean (n : ℕ) (p : ℚ) :
    ∑ i ∈ Finset.range (n + 1), (i : ℚ) * binomPmf n p i = n * p := by
  cases n with
  | zero => simp [binomPmf]
  | succ m =>
    rw [Finset.sum_range_succ']
    simp only [Nat.cast_zero, zero_mul, add_zero]
    have hstep : ∀ i ∈ Finset.range (m + 1),
        ((i:ℚ) + 1) * binomPmf (m+1) p (i+1)
          = ((m:ℚ)+1) * p * binomPmf m p i := by
      intro i hi
      rw [Finset.mem_range] at hi
      rw [binomPmf, binomPmf]
      have hc : ((m+1).choose (i+1) : ℚ) * ((i:ℚ)+1) = ((m:ℚ)+1) * (m.choose i : ℚ) := by
        have := Nat.succ_mul_choose_eq m i
        have hcast : ((Nat.succ m * m.choose i : ℕ) : ℚ)
            = (((m+1).choose (i+1) * (i+1) : ℕ) : ℚ) := by
          rw [this]
        push_cast at hcast
        linarith
      have hsub : m + 1 - (i + 1) = m - i := by omega
      rw [hsub]
      calc ((i:ℚ) + 1) * ((((m+1).choose (i+1) : ℕ) : ℚ) * p ^ (i+1) * (1-p)^(m-i))
          = (((m+1).choose (i+1) : ℚ) * ((i:ℚ)+1)) * p ^ (i+1) * (1-p)^(m-i) := by ring
        _ = (((m:ℚ)+1) * (m.choose i : ℚ)) * p ^ (i+1) * (1-p)^(m-i) := by rw [hc]
        _ = ((m:ℚ)+1) * p * ((m.choose i : ℚ) * p ^ i * (1-p)^(m-i)) := by ring
    calc ∑ i ∈ Finset.range (m+1), (↑(i+1) : ℚ) * binomPmf (m+1) p (i+1)
        = ∑ i ∈ Finset.range (m+1), ((m:ℚ)+1) * p * binomPmf m p i := by
          apply Finset.sum_congr rfl
          intro i hi
          push_cast
          exact hstep i hi
      _ = ((m:ℚ)+1) * p * ∑ i ∈ Finset.range (m+1), binomPmf m p i := by
          rw [Finset.mul_sum]
      _ = ((m:ℚ)+1) * p := by rw [binomPmf_sum]; ring
      _ = (↑(m+1) : ℚ) * p := by push_cast; ring

theorem binomPmf_second (n : ℕ) (p : ℚ) :
    ∑ i ∈ Finset.range (n + 1), (i : ℚ) * ((i:ℚ) - 1) * binomPmf n p i
      = n * (n - 1) * p ^ 2 := by
  match n with
  | 0 => simp [binomPmf]
  | 1 =>
    rw [Finset.sum_range_succ, Finset.sum_range_succ, Finset.sum_range_zero]
    push_cast
    ring_nf
  | (m + 2) =>
    rw [Finset.sum_range_succ', Finset.sum_range_succ']
    have h0 : (↑(0:ℕ) : ℚ) * ((↑(0:ℕ) : ℚ) - 1) * binomPmf (m+2) p 0 = 0 := by
      norm_num
    have h1 : (↑(0+1:ℕ) : ℚ) * ((↑(0+1:ℕ) : ℚ) - 1) * binomPmf (m+2) p (0+1) = 0 := by
      norm_num
    rw [h0, h1, add_zero, add_zero]
    have hstep : ∀ i ∈ Finset.range (m + 1),
        (↑(i+1+1 : ℕ) : ℚ) * ((↑(i+1+1 : ℕ) : ℚ) - 1) * binomPmf (m+2) p (i+1+1)
          = ((m:ℚ)+2) * ((m:ℚ)+1) * p^2 * binomPmf m p i := by
      intro i hi
      show (↑(i+2 : ℕ) : ℚ) * ((↑(i+2 : ℕ) : ℚ) - 1) * binomPmf (m+2) p (i+2)
          = ((m:ℚ)+2) * ((m:ℚ)+1) * p^2 * binomPmf m p i
      rw [binomPmf, binomPmf]
      have hc1 := Nat.succ_mul_choose_eq (m+1) (i+1)
      have hc2 := Nat.succ_mul_choose_eq m i
      have hq1 : ((Nat.succ (m+1) * (m+1).choose (i+1) : ℕ) : ℚ)
          = (((m+2).choose (i+2) * (i+2) : ℕ) : ℚ) := by rw [hc1]
      have hq2 : ((Nat.succ m * m.choose i : ℕ) : ℚ)
          = (((m+1).choose (i+1) * (i+1) : ℕ) : ℚ) := by rw [hc2]
      push_cast at hq1 hq2
      have hc : (((m+2).choose (i+2) : ℕ) : ℚ) * (((i:ℚ)+2) * ((i:ℚ)+1))
          = ((m:ℚ)+2) * ((m:ℚ)+1) * (m.choose i : ℚ) := by
        linear_combination (-((i:ℚ)+1)) * hq1 - ((m:ℚ)+2) * hq2
      have hsub : m + 2 - (i + 2) = m - i := by omega
      rw [hsub]
      push_cast
      calc ((i:ℚ) + 2) * ((i:ℚ) + 2 - 1) * ((((m+2).choose (i+2) : ℕ) : ℚ) * p ^ (i+2) * (1-p)^(m-i))
          = ((((m+2).choose (i+2) : ℕ) : ℚ) * (((i:ℚ)+2) * ((i:ℚ)+1))) * p ^ (i+2) * (1-p)^(m-i) := by
            ring
        _ = (((m:ℚ)+2) * ((m:ℚ)+1) * (m.choose i : ℚ)) * p ^ (i+2) * (1-p)^(m-i) := by rw [hc]
        _ = ((m:ℚ)+2) * ((m:ℚ)+1) * p^2 * ((m.choose i : ℚ) * p ^ i * (1-p)^(m-i)) := by ring
    calc ∑ i ∈ Finset.range (m+1),
          (↑(i+1+1 : ℕ) : ℚ) * ((↑(i+1+1 : ℕ) : ℚ) - 1) * binomPmf (m+2) p (i+1+1)
        = ∑ i ∈ Finset.range (m+1), ((m:ℚ)+2) * ((m:ℚ)+1) * p^2 * binomPmf m p i :=
          Finset.sum_congr rfl hstep
      _ = ((m:ℚ)+2) * ((m:ℚ)+1) * p^2 * ∑ i ∈ Finset.range (m+1), binomPmf m p i := by
          rw [Finset.mul_sum]
      _ = (↑(m+2) : ℚ) * ((↑(m+2) : ℚ) - 1) * p^2 := by
          rw [binomPmf_sum]
          push_cast
          ring

/-- The variance identity for the binomial distribution, in exact rational
arithmetic: the second central moment about the mean `n p` is `n p (1-p)`. -/
theorem binomPmf_var (n : ℕ) (p : ℚ) :
    ∑ i ∈ Finset.range (n + 1), ((i : ℚ) - n * p) ^ 2 * binomPmf n p i
      = n * p * (1 - p) := by
  have hexp : ∀ i ∈ Finset.range (n+1),
      ((i : ℚ) - n * p) ^ 2 * binomPmf n p i
        = (i : ℚ) * ((i:ℚ) - 1) * binomPmf n p i
          + (1 - 2 * n * p) * ((i : ℚ) * binomPmf n p i)
          + (n * p)^2 * binomPmf n p i := by
    intro i _
    ring
  rw [Finset.sum_congr rfl hexp, Finset.sum_add_distrib, Finset.sum_add_distrib,
    ← Finset.mul_sum, ← Finset.mul_sum, binomPmf_second, binomPmf_mean, binomPmf_sum]
  ring

/-- The consecutive-terms identity for the binomial mass function. -/
theorem binomPmf_ratio (n i : ℕ) (p : ℚ) :
    binomPmf n p (i+1) * (((i:ℚ)+1) * (1-p)) = binomPmf n p i * (((n:ℚ) - i) * p) := by
  rcases Nat.lt_or_ge i n with hin | hin
  · rw [binomPmf, binomPmf]
    have hc := Nat.choose_succ_right_eq n i
    have hq : ((n.choose (i+1) * (i+1) : ℕ) : ℚ) = ((n.choose i * (n - i) : ℕ) : ℚ) := by
      rw [hc]
    have hni : ((n - i : ℕ) : ℚ) = (n:ℚ) - i := by
      have := Nat.cast_sub (le_of_lt hin) (R := ℚ)
      exact this
    push_cast [hni] at hq
    have hsub : n - (i+1) + 1 = n - i := by omega
    have hpow : (1-p) ^ (n - (i+1)) * (1-p) = (1-p) ^ (n-i) := by
      rw [← pow_succ, hsub]
    calc (n.choose (i+1) : ℚ) * p ^ (i+1) * (1-p) ^ (n-(i+1)) * (((i:ℚ)+1) * (1-p))
        = ((n.choose (i+1) : ℚ) * ((i:ℚ)+1)) * p ^ (i+1)
            * ((1-p) ^ (n-(i+1)) * (1-p)) := by ring
      _ = ((n.choose i : ℚ) * ((n:ℚ) - i)) * p ^ (i+1) * (1-p) ^ (n-i) := by
          rw [hq, hpow]
      _ = (n.choose i : ℚ) * p ^ i * (1-p) ^ (n-i) * (((n:ℚ) - i) * p) := by
          rw [pow_succ]
          ring
  · rcases Nat.eq_or_lt_of_le hin with heq | hlt
    · subst heq
      rw [binomPmf, binomPmf, Nat.choose_succ_self]
      push_cast
      ring
    · rw [binomPmf, binomPmf, Nat.choose_eq_zero_of_lt (by omega),
        Nat.choose_eq_zero_of_lt hlt]
      push_cast
      ring

/-- The success probability `k / n`, whose binomial mean is the integer `k`. -/
def pOf (n k : ℕ) : ℚ := (k : ℚ) / n

theorem pOf_pos (n k : ℕ) (hk1 : 1 ≤ k) (hkn : k + 1 ≤ n) : 0 < pOf n k := by
  rw [pOf]
  have h1 : (0:ℚ) < k := by exact_mod_cast hk1
  have h2 : (0:ℚ) < n := by exact_mod_cast (show (0:ℕ) < n by omega)
  positivity

theorem pOf_lt_one (n k : ℕ) (hkn : k + 1 ≤ n) : pOf n k < 1 := by
  rw [pOf, div_lt_one (by exact_mod_cast (show (0:ℕ) < n by omega))]
  exact_mod_cast (show k < n by omega)

theorem one_sub_pOf_pos (n k : ℕ) (hkn : k + 1 ≤ n) : 0 < 1 - pOf n k := by
  have := pOf_lt_one n k hkn
  linarith

theorem binomPmf_step_up (n k i : ℕ) (hk1 : 1 ≤ k) (hkn : k + 1 ≤ n)
    (hik : i + 1 ≤ k) :
    binomPmf n (pOf n k) i ≤ binomPmf n (pOf n k) (i+1) := by
  have hp := pOf_pos n k hk1 hkn
  have hq := one_sub_pOf_pos n k hkn
  have hb := binomPmf_nonneg (le_of_lt hp) (by linarith) (n := n) i
  have hrat := binomPmf_ratio n i (pOf n k)
  have hnn : (0:ℚ) < n := by exact_mod_cast (show (0:ℕ) < n by omega)
  have hkey : ((i:ℚ)+1) * (1 - pOf n k) ≤ ((n:ℚ) - i) * pOf n k := by
    have hnat : n * (i+1) ≤ k * (n+1) := by
      calc n * (i+1) ≤ n * k := Nat.mul_le_mul_left n hik
        _ ≤ k * (n+1) := by ring_nf; omega
    have hcast : (n:ℚ) * ((i:ℚ)+1) ≤ (k:ℚ) * ((n:ℚ)+1) := by exact_mod_cast hnat
    have e1 : ((i:ℚ)+1) * (1 - pOf n k) = (((i:ℚ)+1) * ((n:ℚ) - k)) / n := by
      rw [pOf]
      field_simp
    have e2 : ((n:ℚ) - i) * pOf n k = (((n:ℚ) - i) * k) / n := by
      rw [pOf]
      ring
    rw [e1, e2, div_le_div_iff₀ hnn hnn]
    nlinarith [hcast, hnn]
  have hstep : binomPmf n (pOf n k) i * (((i:ℚ)+1) * (1 - pOf n k))
      ≤ binomPmf n (pOf n k) (i+1) * (((i:ℚ)+1) * (1 - pOf n k)) := by
    rw [hrat]
    exact mul_le_mul_of_nonneg_left hkey hb
  have hX : (0:ℚ) < ((i:ℚ)+1) * (1 - pOf n k) := by positivity
  exact le_of_mul_le_mul_right hstep hX

theorem binomPmf_step_down (n k i : ℕ) (hk1 : 1 ≤ k) (hkn : k + 1 ≤ n)
    (hik : k ≤ i) :
    binomPmf n (pOf n k) (i+1) ≤ binomPmf n (pOf n k) i := by
  have hp := pOf_pos n k hk1 hkn
  have hq := one_sub_pOf_pos n k hkn
  have hb := binomPmf_nonneg (le_of_lt hp) (by linarith) (n := n) i
  have hrat := binomPmf_ratio n i (pOf n k)
  have hnn : (0:ℚ) < n := by exact_mod_cast (show (0:ℕ) < n by omega)
  have hkey : ((n:ℚ) - i) * pOf n k ≤ ((i:ℚ)+1) * (1 - pOf n k) := by
    have hnat : k * (n+1) ≤ n * (i+1) := by
      have h1 : k * (n+1) = k * n + k := by ring
      have h2 : n * (i+1) = n * i + n := by ring
      rw [h1, h2]
      have h3 : k * n ≤ n * i := by
        calc k * n = n * k := by ring
          _ ≤ n * i := Nat.mul_le_mul_left n hik
      omega
    have hcast : (k:ℚ) * ((n:ℚ)+1) ≤ (n:ℚ) * ((i:ℚ)+1) := by exact_mod_cast hnat
    have e1 : ((i:ℚ)+1) * (1 - pOf n k) = (((i:ℚ)+1) * ((n:ℚ) - k)) / n := by
      rw [pOf]
      field_simp
    have e2 : ((n:ℚ) - i) * pOf n k = (((n:ℚ) - i) * k) / n := by
      rw [pOf]
      ring
    rw [e1, e2, div_le_div_iff₀ hnn hnn]
    nlinarith [hcast, hnn]
  have hstep : binomPmf n (pOf n k) (i+1) * (((i:ℚ)+1) * (1 - pOf n k))
      ≤ binomPmf n (pOf n k) i * (((i:ℚ)+1) * (1 - pOf n k)) := by
    rw [hrat]
    exact mul_le_mul_of_nonneg_left hkey hb
  have hX : (0:ℚ) < ((i:ℚ)+1) * (1 - pOf n k) := by positivity
  exact le_of_mul_le_mul_right hstep hX

/-- The binomial mass function with success probability `k/n` is maximal at
its integer mean `k` (unimodality with mode `k`). -/
theorem binomPmf_le_mode (n k : ℕ) (hk1 : 1 ≤ k) (hkn : k + 1 ≤ n) (i : ℕ) :
    binomPmf n (pOf n k) i ≤ binomPmf n (pOf n k) k := by
  rcases le_or_lt i k with hik | hki
  · have hchain : ∀ d, d ≤ k → binomPmf n (pOf n k) (k - d) ≤ binomPmf n (pOf n k) k := by
      intro d
      induction d with
      | zero => intro _; simp
      | succ e ih =>
        intro hd
        have he : e ≤ k := by omega
        have hstep : binomPmf n (pOf n k) (k - (e+1)) ≤ binomPmf n (pOf n k) (k - e) := by
          have hsub : k - (e+1) + 1 = k - e := by omega
          have := binomPmf_step_up n k (k - (e+1)) hk1 hkn (by omega)
          rwa [hsub] at this
        exact le_trans hstep (ih he)
    have hrw : i = k - (k - i) := by omega
    rw [hrw]
    exact hchain (k - i) (by omega)
  · have hchain : ∀ i, k ≤ i → binomPmf n (pOf n k) i ≤ binomPmf n (pOf n k) k := by
      intro j hj
      induction j with
      | zero => omega
      | succ e ih =>
        rcases Nat.eq_or_lt_of_le hj with heq | hlt
        · rw [← heq]
        · have hke : k ≤ e := by omega
          exact le_trans (binomPmf_step_down n k e hk1 hkn hke) (ih hke)
    exact hchain i (by omega)


theorem keyScalar (K A Jq : ℚ) (hK : 1 ≤ K) (hA : 1 ≤ A) (hJ : 0 ≤ Jq)
    (hJK : Jq + 1 ≤ K) (hJA : Jq + 1 ≤ A)
    (hc : 0 ≤ 2*K*A - (Jq+1)*(Jq+2)*(K+A)) :
    (2*K*A - (Jq+1)*(Jq+2)*(K+A)) * ((K+Jq+1) * A)
      ≤ (2*K*A - Jq*(Jq+1)*(K+A)) * ((A-Jq) * K) := by
  have hK0 : (0:ℚ) < K := by linarith
  have hA0 : (0:ℚ) < A := by linarith
  have hcj : 0 ≤ 2*K*A - Jq*(Jq+1)*(K+A) := by nlinarith [hc]
  have hident : K*A*((2*K*A - Jq*(Jq+1)*(K+A))*((A-Jq)*K)
        - (2*K*A - (Jq+1)*(Jq+2)*(K+A))*((K+Jq+1)*A))
      = (A-Jq)*(Jq+1)^2*(2*K*A - Jq*(Jq+1)*(K+A))*A
        + (2*K*A - Jq*(Jq+1)*(K+A))*(Jq*(Jq+1)*(K+Jq+1)*A)
        + Jq*(Jq+1)*(K+A)*((Jq*K+(Jq+1)*A)*((K+Jq+1)*A))
        + 2*(K+Jq+1)*K^2*A^2 := by ring
  have h1 : 0 ≤ (A-Jq)*(Jq+1)^2*(2*K*A - Jq*(Jq+1)*(K+A))*A := by
    apply mul_nonneg
    apply mul_nonneg
    apply mul_nonneg
    · linarith
    · positivity
    · exact hcj
    · linarith
  have h2 : 0 ≤ (2*K*A - Jq*(Jq+1)*(K+A))*(Jq*(Jq+1)*(K+Jq+1)*A) := by
    apply mul_nonneg hcj
    apply mul_nonneg
    apply mul_nonneg
    apply mul_nonneg hJ
    · linarith
    · linarith
    · linarith
  have h3 : 0 ≤ Jq*(Jq+1)*(K+A)*((Jq*K+(Jq+1)*A)*((K+Jq+1)*A)) := by
    apply mul_nonneg
    apply mul_nonneg
    apply mul_nonneg hJ
    · linarith
    · linarith
    apply mul_nonneg
    · nlinarith
    · nlinarith
  have h4 : 0 ≤ 2*(K+Jq+1)*K^2*A^2 := by positivity
  nlinarith [hident, h1, h2, h3, h4, mul_pos hK0 hA0]

/-- The variance parameter `k (n-k) / n` of the binomial distribution with
`n` trials and success probability `k/n`. -/
def Vq (n k : ℕ) : ℚ := (k:ℚ) * ((n:ℚ) - (k:ℚ)) / (n:ℚ)

theorem Vq_pos (n k : ℕ) (hk1 : 1 ≤ k) (hkn : k + 1 ≤ n) : 0 < Vq n k := by
  rw [Vq]
  have h1 : (0:ℚ) < k := by exact_mod_cast hk1
  have h2 : (0:ℚ) < n := by exact_mod_cast (show (0:ℕ) < n by omega)
  have h3 : (k:ℚ) < n := by exact_mod_cast (show k < n by omega)
  have h4 : (0:ℚ) < (n:ℚ) - k := by linarith
  positivity

/-- Lower bound on the binomial mass `j` places to the right of the integer
mean `k`: `b (k+j) ≥ b k · (1 - j(j+1)/(2V))`. -/
theorem binomPmf_shift_ge (n k : ℕ) (hk1 : 1 ≤ k) (hkn : k + 1 ≤ n) :
    ∀ j : ℕ, k + j ≤ n → j ≤ k →
      binomPmf n (pOf n k) k * (1 - (j:ℚ)*((j:ℚ)+1)/(2 * Vq n k))
        ≤ binomPmf n (pOf n k) (k + j)
  | 0, _, _ => by norm_num
  | (j+1), hja, hjk => by
    have hp := pOf_pos n k hk1 hkn
    have hq := one_sub_pOf_pos n k hkn
    have hbk := binomPmf_nonneg (le_of_lt hp) (by linarith) (n := n) k
    have hbkj := binomPmf_nonneg (le_of_lt hp) (by linarith) (n := n) (k + j)
    have hV := Vq_pos n k hk1 hkn
    set K : ℚ := (k:ℚ) with hKdef
    set A : ℚ := (n:ℚ) - (k:ℚ) with hAdef
    have hK : 1 ≤ K := by rw [hKdef]; exact_mod_cast hk1
    have hA1 : 1 ≤ A := by
      rw [hAdef]
      have : (k:ℚ) + 1 ≤ (n:ℚ) := by exact_mod_cast hkn
      linarith
    have hKA : (0:ℚ) < K + A := by linarith
    have hnKA : (n:ℚ) = K + A := by rw [hKdef, hAdef]; ring
    have hpeq : pOf n k = K / (K + A) := by rw [pOf, hnKA]
    have hqeq : 1 - pOf n k = A / (K + A) := by
      rw [hpeq]
      field_simp
    have hVeq : Vq n k = K * A / (K + A) := by
      rw [Vq, hnKA, ← hKdef]
      ring
    rcases le_or_lt (1 - ((j:ℚ)+1)*(((j:ℚ)+1)+1)/(2 * Vq n k)) 0 with hcase | hcase
    · have : binomPmf n (pOf n k) k * (1 - ((j:ℚ)+1)*(((j:ℚ)+1)+1)/(2 * Vq n k)) ≤ 0 :=
        mul_nonpos_of_nonneg_of_nonpos hbk hcase
      have hgoal := binomPmf_nonneg (le_of_lt hp) (by linarith : pOf n k ≤ 1) (n := n) (k + (j+1))
      push_cast
      push_cast at this
      linarith
    · -- nontrivial case: positive target coefficient
      have hIH := binomPmf_shift_ge n k hk1 hkn j (by omega) (by omega)
      have hJq : (0:ℚ) ≤ (j:ℚ) := by positivity
      have hJK : (j:ℚ) + 1 ≤ K := by rw [hKdef]; exact_mod_cast hjk
      have hJA : (j:ℚ) + 1 ≤ A := by
        rw [hAdef]
        have : ((k + (j+1) : ℕ) : ℚ) ≤ (n:ℚ) := by exact_mod_cast hja
        push_cast at this
        linarith
      -- positivity of the coefficient gives the polynomial side condition
      have hc : 0 ≤ 2*K*A - ((j:ℚ)+1)*((j:ℚ)+2)*(K+A) := by
        rw [hVeq] at hcase
        have h2V : (0:ℚ) < 2 * (K * A / (K + A)) := by
          rw [← hVeq]; linarith
        have hlt : ((j:ℚ)+1)*(((j:ℚ)+1)+1) < 2 * (K * A / (K + A)) := by
          by_contra hcon
          push_neg at hcon
          have hx : 1 ≤ ((j:ℚ)+1)*(((j:ℚ)+1)+1) / (2 * (K * A / (K + A))) := by
            rw [le_div_iff₀ h2V]
            linarith
          linarith
        have hexp : 2 * (K * A / (K + A)) = 2*K*A / (K+A) := by ring
        rw [hexp, lt_div_iff₀ hKA] at hlt
        nlinarith [hlt]
      have hks := keyScalar K A (j:ℚ) hK hA1 hJq hJK hJA hc
      -- the ratio identity at i = k + j
      have hrat := binomPmf_ratio n (k+j) (pOf n k)
      have hcast1 : ((k + j : ℕ) : ℚ) = K + (j:ℚ) := by push_cast; ring
      have hnkj : (n:ℚ) - ((k+j : ℕ) : ℚ) = A - (j:ℚ) := by
        rw [hcast1, hAdef]; ring
      rw [hnkj] at hrat
      -- scaled key inequality
      have hD : (0:ℚ) < 2*K*A*(K+A) := by positivity
      have heL : (1 - ((j:ℚ)+1)*(((j:ℚ)+1)+1)/(2 * Vq n k)) * ((((k+j:ℕ):ℚ)+1) * (1 - pOf n k))
          = (2*K*A - ((j:ℚ)+1)*((j:ℚ)+2)*(K+A)) * ((K+(j:ℚ)+1) * A) / (2*K*A*(K+A)) := by
        rw [hVeq, hqeq, hcast1]
        field_simp
        ring
      have heR : (1 - (j:ℚ)*((j:ℚ)+1)/(2 * Vq n k)) * ((A - (j:ℚ)) * pOf n k)
          = (2*K*A - (j:ℚ)*((j:ℚ)+1)*(K+A)) * ((A-(j:ℚ)) * K) / (2*K*A*(K+A)) := by
        rw [hVeq, hpeq]
        field_simp
        ring
      have hmain : (1 - ((j:ℚ)+1)*(((j:ℚ)+1)+1)/(2 * Vq n k)) * ((((k+j:ℕ):ℚ)+1) * (1 - pOf n k))
          ≤ (1 - (j:ℚ)*((j:ℚ)+1)/(2 * Vq n k)) * ((A - (j:ℚ)) * pOf n k) := by
        rw [heL, heR]
        exact div_le_div_of_nonneg_right hks hD.le
      -- combine with the induction hypothesis and the ratio identity
      have hAj : (0:ℚ) ≤ (A - (j:ℚ)) * pOf n k := by
        apply mul_nonneg
        · linarith
        · linarith
      have hchain : binomPmf n (pOf n k) k * (1 - ((j:ℚ)+1)*(((j:ℚ)+1)+1)/(2 * Vq n k))
            * ((((k+j:ℕ):ℚ)+1) * (1 - pOf n k))
          ≤ binomPmf n (pOf n k) (k+j+1) * ((((k+j:ℕ):ℚ)+1) * (1 - pOf n k)) := by
        rw [hrat]
        calc binomPmf n (pOf n k) k * (1 - ((j:ℚ)+1)*(((j:ℚ)+1)+1)/(2 * Vq n k))
              * ((((k+j:ℕ):ℚ)+1) * (1 - pOf n k))
            ≤ binomPmf n (pOf n k) k * ((1 - (j:ℚ)*((j:ℚ)+1)/(2 * Vq n k)) * ((A - (j:ℚ)) * pOf n k)) := by
              rw [mul_assoc]
              exact mul_le_mul_of_nonneg_left hmain hbk
          _ = (binomPmf n (pOf n k) k * (1 - (j:ℚ)*((j:ℚ)+1)/(2 * Vq n k))) * ((A - (j:ℚ)) * pOf n k) := by
              ring
          _ ≤ binomPmf n (pOf n k) (k+j) * ((A - (j:ℚ)) * pOf n k) :=
              mul_le_mul_of_nonneg_right hIH hAj
      have hX : (0:ℚ) < (((k+j:ℕ):ℚ)+1) * (1 - pOf n k) := by positivity
      have hfin := le_of_mul_le_mul_right (by
        calc binomPmf n (pOf n k) k * (1 - ((j:ℚ)+1)*(((j:ℚ)+1)+1)/(2 * Vq n k))
              * ((((k+j:ℕ):ℚ)+1) * (1 - pOf n k))
            ≤ binomPmf n (pOf n k) (k+j+1) * ((((k+j:ℕ):ℚ)+1) * (1 - pOf n k)) := hchain) hX
      have hidx : k + (j+1) = (k+j) + 1 := by omega
      rw [hidx]
      push_cast
      push_cast at hfin
      linarith

theorem binomPmf_var_int (n k : ℕ) (hkn : k ≤ n) (hn : 0 < n) :
    ∑ i ∈ Finset.range (n + 1), ((i : ℚ) - k) ^ 2 * binomPmf n (pOf n k) i
      = Vq n k := by
  have hn0 : (n:ℚ) ≠ 0 := by
    have : (0:ℚ) < n := by exact_mod_cast hn
    linarith
  have hnp : (n:ℚ) * pOf n k = k := by
    rw [pOf]
    field_simp
  have h := binomPmf_var n (pOf n k)
  rw [hnp] at h
  rw [h, Vq, pOf]
  field_simp

theorem window_mass (n k w : ℕ) (hk1 : 1 ≤ k) (hkn : k + 1 ≤ n)
    (hwk : w ≤ k) (hwn : k + w ≤ n) :
    1 - Vq n k / ((w:ℚ)+1)^2
      ≤ ∑ i ∈ Finset.Icc (k-w) (k+w), binomPmf n (pOf n k) i := by
  have hp := pOf_pos n k hk1 hkn
  have hq := one_sub_pOf_pos n k hkn
  have hb : ∀ i, 0 ≤ binomPmf n (pOf n k) i :=
    fun i => binomPmf_nonneg (le_of_lt hp) (by linarith) i
  have hsub : Finset.Icc (k-w) (k+w) ⊆ Finset.range (n+1) := by
    intro i hi
    rw [Finset.mem_Icc] at hi
    rw [Finset.mem_range]
    omega
  have hsplit := Finset.sum_sdiff (f := fun i => binomPmf n (pOf n k) i) hsub
  have hw1 : (0:ℚ) < ((w:ℚ)+1)^2 := by positivity
  have houter : ∑ i ∈ Finset.range (n+1) \ Finset.Icc (k-w) (k+w), binomPmf n (pOf n k) i
      ≤ Vq n k / ((w:ℚ)+1)^2 := by
    have hstep1 : ∑ i ∈ Finset.range (n+1) \ Finset.Icc (k-w) (k+w), binomPmf n (pOf n k) i
        ≤ ∑ i ∈ Finset.range (n+1) \ Finset.Icc (k-w) (k+w),
            (((i:ℚ) - k)^2 / ((w:ℚ)+1)^2) * binomPmf n (pOf n k) i := by
      apply Finset.sum_le_sum
      intro i hi
      rw [Finset.mem_sdiff, Finset.mem_Icc, Finset.mem_range] at hi
      have hfar : ((w:ℚ)+1)^2 ≤ ((i:ℚ) - k)^2 := by
        rcases Nat.lt_or_ge i (k - w) with hlow | hhigh
        · have hni : i + w + 1 ≤ k := by omega
          have hc : (i:ℚ) + w + 1 ≤ k := by exact_mod_cast hni
          nlinarith [hc]
        · have hni : k + w + 1 ≤ i := by omega
          have hc : (k:ℚ) + w + 1 ≤ i := by exact_mod_cast hni
          nlinarith [hc]
      have hone : 1 ≤ ((i:ℚ) - k)^2 / ((w:ℚ)+1)^2 := by
        rw [le_div_iff₀ hw1]
        linarith
      nlinarith [hb i, hone]
    have hstep2 : ∑ i ∈ Finset.range (n+1) \ Finset.Icc (k-w) (k+w),
          (((i:ℚ) - k)^2 / ((w:ℚ)+1)^2) * binomPmf n (pOf n k) i
        ≤ (1 / ((w:ℚ)+1)^2) * ∑ i ∈ Finset.range (n+1), ((i:ℚ) - k)^2 * binomPmf n (pOf n k) i := by
      rw [Finset.mul_sum]
      have hmono : ∑ i ∈ Finset.range (n+1) \ Finset.Icc (k-w) (k+w),
            (1 / ((w:ℚ)+1)^2) * (((i:ℚ) - k)^2 * binomPmf n (pOf n k) i)
          ≤ ∑ i ∈ Finset.range (n+1),
            (1 / ((w:ℚ)+1)^2) * (((i:ℚ) - k)^2 * binomPmf n (pOf n k) i) := by
        apply Finset.sum_le_sum_of_subset_of_nonneg (Finset.sdiff_subset)
        intro i _ _
        have := hb i
        positivity
      calc ∑ i ∈ Finset.range (n+1) \ Finset.Icc (k-w) (k+w),
            (((i:ℚ) - k)^2 / ((w:ℚ)+1)^2) * binomPmf n (pOf n k) i
          = ∑ i ∈ Finset.range (n+1) \ Finset.Icc (k-w) (k+w),
            (1 / ((w:ℚ)+1)^2) * (((i:ℚ) - k)^2 * binomPmf n (pOf n k) i) := by
            apply Finset.sum_congr rfl
            intro i _
            ring
        _ ≤ ∑ i ∈ Finset.range (n+1),
            (1 / ((w:ℚ)+1)^2) * (((i:ℚ) - k)^2 * binomPmf n (pOf n k) i) := hmono
    calc ∑ i ∈ Finset.range (n+1) \ Finset.Icc (k-w) (k+w), binomPmf n (pOf n k) i
        ≤ (1 / ((w:ℚ)+1)^2) * ∑ i ∈ Finset.range (n+1), ((i:ℚ) - k)^2 * binomPmf n (pOf n k) i :=
          le_trans hstep1 hstep2
      _ = Vq n k / ((w:ℚ)+1)^2 := by
          rw [binomPmf_var_int n k (by omega) (by omega)]
          ring
  have hsum1 := binomPmf_sum n (pOf n k)
  have : ∑ i ∈ Finset.Icc (k-w) (k+w), binomPmf n (pOf n k) i
      = 1 - ∑ i ∈ Finset.range (n+1) \ Finset.Icc (k-w) (k+w), binomPmf n (pOf n k) i := by
    rw [← hsum1, ← hsplit]
    ring
  rw [this]
  linarith

theorem mode_lower (n k w : ℕ) (hk1 : 1 ≤ k) (hkn : k + 1 ≤ n)
    (hwk : w ≤ k) (hwn : k + w ≤ n) :
    1 - Vq n k / ((w:ℚ)+1)^2 ≤ (2*(w:ℚ)+1) * binomPmf n (pOf n k) k := by
  have hwin := window_mass n k w hk1 hkn hwk hwn
  have hcard : (Finset.Icc (k-w) (k+w)).card = 2*w+1 := by
    rw [Nat.card_Icc]
    omega
  have hmode : ∑ i ∈ Finset.Icc (k-w) (k+w), binomPmf n (pOf n k) i
      ≤ (2*(w:ℚ)+1) * binomPmf n (pOf n k) k := by
    calc ∑ i ∈ Finset.Icc (k-w) (k+w), binomPmf n (pOf n k) i
        ≤ ∑ _i ∈ Finset.Icc (k-w) (k+w), binomPmf n (pOf n k) k := by
          apply Finset.sum_le_sum
          intro i _
          exact binomPmf_le_mode n k hk1 hkn i
      _ = (2*(w:ℚ)+1) * binomPmf n (pOf n k) k := by
          rw [Finset.sum_const, hcard]
          simp only [nsmul_eq_mul]
          push_cast
          ring
  linarith

theorem sum_j_mul_succ (m : ℕ) :
    ∑ j ∈ Finset.range (m+1), (j:ℚ)*((j:ℚ)+1) = m*((m:ℚ)+1)*((m:ℚ)+2)/3 := by
  induction m with
  | zero => simp
  | succ e ih =>
    rw [Finset.sum_range_succ, ih]
    push_cast
    ring

/-- The right tail from the mode dominates the truncated series bound. -/
theorem right_sum_ge (n k J : ℕ) (hk1 : 1 ≤ k) (hkn : k + 1 ≤ n)
    (hJa : k + J ≤ n) (hJk : J ≤ k) :
    binomPmf n (pOf n k) k
        * (((J:ℚ)+1) - (J:ℚ)*((J:ℚ)+1)*((J:ℚ)+2)/(6 * Vq n k))
      ≤ ∑ i ∈ Finset.Icc k n, binomPmf n (pOf n k) i := by
  have hp := pOf_pos n k hk1 hkn
  have hq := one_sub_pOf_pos n k hkn
  have hb : ∀ i, 0 ≤ binomPmf n (pOf n k) i :=
    fun i => binomPmf_nonneg (le_of_lt hp) (by linarith) i
  have hV := Vq_pos n k hk1 hkn
  have h1 : ∑ j ∈ Finset.range (J+1),
        binomPmf n (pOf n k) k * (1 - (j:ℚ)*((j:ℚ)+1)/(2 * Vq n k))
      ≤ ∑ j ∈ Finset.range (J+1), binomPmf n (pOf n k) (k+j) := by
    apply Finset.sum_le_sum
    intro j hj
    rw [Finset.mem_range] at hj
    exact binomPmf_shift_ge n k hk1 hkn j (by omega) (by omega)
  have h2 : ∑ j ∈ Finset.range (J+1),
        binomPmf n (pOf n k) k * (1 - (j:ℚ)*((j:ℚ)+1)/(2 * Vq n k))
      = binomPmf n (pOf n k) k
          * (((J:ℚ)+1) - (J:ℚ)*((J:ℚ)+1)*((J:ℚ)+2)/(6 * Vq n k)) := by
    rw [← Finset.mul_sum]
    congr 1
    rw [Finset.sum_sub_distrib, Finset.sum_const, Finset.card_range]
    have hsum := sum_j_mul_succ J
    have : ∑ j ∈ Finset.range (J+1), (j:ℚ)*((j:ℚ)+1)/(2 * Vq n k)
        = (∑ j ∈ Finset.range (J+1), (j:ℚ)*((j:ℚ)+1)) / (2 * Vq n k) := by
      rw [Finset.sum_div]
    rw [this, hsum]
    have hV0 : (Vq n k) ≠ 0 := ne_of_gt hV
    field_simp
    ring
  have h3 : ∑ j ∈ Finset.range (J+1), binomPmf n (pOf n k) (k+j)
      = ∑ i ∈ Finset.Ico k (k+J+1), binomPmf n (pOf n k) i := by
    rw [Finset.sum_Ico_eq_sum_range]
    have : k + J + 1 - k = J + 1 := by omega
    rw [this]
  have h4 : ∑ i ∈ Finset.Ico k (k+J+1), binomPmf n (pOf n k) i
      ≤ ∑ i ∈ Finset.Icc k n, binomPmf n (pOf n k) i := by
    apply Finset.sum_le_sum_of_subset_of_nonneg
    · intro i hi
      rw [Finset.mem_Ico] at hi
      rw [Finset.mem_Icc]
      omega
    · intro i _ _
      exact hb i
  calc binomPmf n (pOf n k) k
        * (((J:ℚ)+1) - (J:ℚ)*((J:ℚ)+1)*((J:ℚ)+2)/(6 * Vq n k))
      = ∑ j ∈ Finset.range (J+1),
          binomPmf n (pOf n k) k * (1 - (j:ℚ)*((j:ℚ)+1)/(2 * Vq n k)) := h2.symm
    _ ≤ ∑ j ∈ Finset.range (J+1), binomPmf n (pOf n k) (k+j) := h1
    _ = ∑ i ∈ Finset.Ico k (k+J+1), binomPmf n (pOf n k) i := h3
    _ ≤ ∑ i ∈ Finset.Icc k n, binomPmf n (pOf n k) i := h4

/-- The master lower bound on the upper tail at the integer mean, for any
window half-width `w` and series length `J` within range. -/
theorem tail_lower_master (n k w J : ℕ) (hk1 : 1 ≤ k) (hkn : k + 1 ≤ n)
    (hwk : w ≤ k) (hwn : k + w ≤ n) (hJa : k + J ≤ n) (hJk : J ≤ k)
    (hS : 0 ≤ ((J:ℚ)+1) - (J:ℚ)*((J:ℚ)+1)*((J:ℚ)+2)/(6 * Vq n k)) :
    ((1 - Vq n k / ((w:ℚ)+1)^2) / (2*(w:ℚ)+1))
        * (((J:ℚ)+1) - (J:ℚ)*((J:ℚ)+1)*((J:ℚ)+2)/(6 * Vq n k))
      ≤ ∑ i ∈ Finset.Icc k n, binomPmf n (pOf n k) i := by
  have hw0 : (0:ℚ) < 2*(w:ℚ)+1 := by positivity
  have hmode := mode_lower n k w hk1 hkn hwk hwn
  have hB : (1 - Vq n k / ((w:ℚ)+1)^2) / (2*(w:ℚ)+1) ≤ binomPmf n (pOf n k) k := by
    rw [div_le_iff₀ hw0]
    linarith
  have hright := right_sum_ge n k J hk1 hkn hJa hJk
  calc ((1 - Vq n k / ((w:ℚ)+1)^2) / (2*(w:ℚ)+1))
        * (((J:ℚ)+1) - (J:ℚ)*((J:ℚ)+1)*((J:ℚ)+2)/(6 * Vq n k))
      ≤ binomPmf n (pOf n k) k
        * (((J:ℚ)+1) - (J:ℚ)*((J:ℚ)+1)*((J:ℚ)+2)/(6 * Vq n k)) :=
        mul_le_mul_of_nonneg_right hB hS
    _ ≤ ∑ i ∈ Finset.Icc k n, binomPmf n (pOf n k) i := hright

set_option maxHeartbeats 3200000 in
theorem regionC_core (V J W : ℚ) (hJ : 2 ≤ J) (hJ2 : J^2 ≤ 2*V)
    (hJ3 : 2*V ≤ (J+1)^2+1) (hW1 : 5*J - 3 ≤ 4*W) (hW2 : 4*W ≤ 5*J)
    (hV4 : 4 ≤ V) :
    9522*V*((2*W+1)*(W+1)^2) ≤ 10000*((W+1)^2 - V)*(6*V*(J+1) - J*(J+1)*(J+2)) := by
  have hJ0 : (0:ℚ) ≤ J := by linarith
  have hW0 : (0:ℚ) ≤ W := by linarith
  have hV0 : (0:ℚ) ≤ V := by linarith
  have e1 : (0:ℚ) ≤ (2*V - J^2) * ((J+1)^2 + 1 - 2*V) :=
    mul_nonneg (by linarith) (by linarith)
  have e2 : (0:ℚ) ≤ (5*J - 4*W) * J := mul_nonneg (by linarith) hJ0
  have e3 : (0:ℚ) ≤ (5*J - 4*W) * W := mul_nonneg (by linarith) hW0
  have e4 : (0:ℚ) ≤ (4*W - 5*J + 3) * J := mul_nonneg (by linarith) hJ0
  have e5 : (0:ℚ) ≤ (4*W - 5*J + 3) * W := mul_nonneg (by linarith) hW0
  have e6 : (0:ℚ) ≤ (5*J - 4*W) * V := mul_nonneg (by linarith) hV0
  have e7 : (0:ℚ) ≤ (4*W - 5*J + 3) * V := mul_nonneg (by linarith) hV0
  have e8 : (0:ℚ) ≤ (2*V - J^2) * J := mul_nonneg (by linarith) hJ0
  have e9 : (0:ℚ) ≤ ((J+1)^2 + 1 - 2*V) * J := mul_nonneg (by linarith) hJ0
  have e10 : (0:ℚ) ≤ (2*V - J^2) * W := mul_nonneg (by linarith) hW0
  have e11 : (0:ℚ) ≤ ((J+1)^2 + 1 - 2*V) * W := mul_nonneg (by linarith) hW0
  nlinarith [e1, e2, e3, e4, e5, e6, e7, e8, e9, e10, e11,
    mul_nonneg (mul_nonneg hJ0 hJ0) hW0, mul_nonneg (mul_nonneg hJ0 hW0) hW0,
    mul_nonneg hV0 hJ0, mul_nonneg hV0 hW0]

/-- Bridge from the cross-multiplied bound to the `B * S` product form. -/
theorem BS_bridge (V : ℚ) (J W : ℕ) (hV0 : 0 < V)
    (hcross : 9522*V*((2*(W:ℚ)+1)*((W:ℚ)+1)^2)
      ≤ 10000*(((W:ℚ)+1)^2 - V)*(6*V*((J:ℚ)+1) - (J:ℚ)*((J:ℚ)+1)*((J:ℚ)+2))) :
    (1587/10000 : ℚ) ≤ ((1 - V/((W:ℚ)+1)^2)/(2*(W:ℚ)+1))
      * (((J:ℚ)+1) - (J:ℚ)*((J:ℚ)+1)*((J:ℚ)+2)/(6*V)) := by
  have hw1 : (0:ℚ) < ((W:ℚ)+1)^2 := by positivity
  have hw2 : (0:ℚ) < 2*(W:ℚ)+1 := by positivity
  have hD : (0:ℚ) < (((W:ℚ)+1)^2*(2*(W:ℚ)+1))*(6*V) := by positivity
  have hV6 : (6:ℚ)*V ≠ 0 := by positivity
  have hstep1 : 1 - V/((W:ℚ)+1)^2 = (((W:ℚ)+1)^2 - V)/((W:ℚ)+1)^2 := by
    field_simp
  have hstep2 : ((J:ℚ)+1) - (J:ℚ)*((J:ℚ)+1)*((J:ℚ)+2)/(6*V)
      = (6*V*((J:ℚ)+1) - (J:ℚ)*((J:ℚ)+1)*((J:ℚ)+2))/(6*V) := by
    field_simp
    ring
  rw [hstep1, hstep2, div_div, div_mul_div_comm, le_div_iff₀ (by positivity)]
  nlinarith [hcross]

set_option maxHeartbeats 1600000 in
/-- The central tail bound: for a binomial distribution with `n` trials and
success probability `k/n` (`1 ≤ k ≤ n-1`), the probability of at least `k`
successes is at least `0.1587`. -/
theorem tail_ge_main (n k : ℕ) (hk1 : 1 ≤ k) (hkn : k + 1 ≤ n) :
    (1587/10000 : ℚ) ≤ ∑ i ∈ Finset.Icc k n, binomPmf n (pOf n k) i := by
  have hV0 := Vq_pos n k hk1 hkn
  have hn0 : (0:ℚ) < n := by exact_mod_cast (show (0:ℕ) < n by omega)
  have hk0 : (0:ℚ) < k := by exact_mod_cast hk1
  have ha0 : (0:ℚ) < (n:ℚ) - k := by
    have h1 : (k:ℚ) + 1 ≤ n := by exact_mod_cast hkn
    linarith
  have hVk : Vq n k < k := by
    rw [Vq, div_lt_iff₀ hn0]
    nlinarith [hk0, ha0, hn0]
  have hVa : Vq n k < (n:ℚ) - k := by
    rw [Vq, div_lt_iff₀ hn0]
    nlinarith [hk0, ha0, hn0]
  rcases le_or_lt (Vq n k) 2 with hA | hA
  · -- region A: small variance, single window cell
    have hS0 : (0:ℚ) ≤ ((0:ℕ):ℚ) + 1
        - ((0:ℕ):ℚ)*(((0:ℕ):ℚ)+1)*(((0:ℕ):ℚ)+2)/(6 * Vq n k) := by
      push_cast
      rw [zero_mul, zero_mul, zero_div]
      norm_num
    have hmaster := tail_lower_master n k 1 0 hk1 hkn (by omega) (by omega)
      (by omega) (by omega) hS0
    have hcollapse : ((1 - Vq n k / (((1:ℕ):ℚ)+1)^2) / (2*((1:ℕ):ℚ)+1))
        * ((((0:ℕ):ℚ)+1) - ((0:ℕ):ℚ)*(((0:ℕ):ℚ)+1)*(((0:ℕ):ℚ)+2)/(6 * Vq n k))
        = (1 - Vq n k / 4) / 3 := by
      push_cast
      rw [zero_mul, zero_mul, zero_div]
      ring
    rw [hcollapse] at hmaster
    have hnum : (1587/10000 : ℚ) ≤ (1 - Vq n k / 4) / 3 := by linarith
    linarith
  · rcases le_or_lt (Vq n k) 4 with hB | hB
    · -- region B: moderate variance, window 3 and two series terms
      have hk3 : 3 ≤ k := by
        have h2 : (2:ℚ) < k := lt_trans hA hVk
        have h2n : (2:ℕ) < k := by exact_mod_cast h2
        omega
      have ha3 : k + 3 ≤ n := by
        have h2 : (2:ℚ) < (n:ℚ) - k := lt_trans hA hVa
        have h3 : ((k + 2 : ℕ):ℚ) < n := by push_cast; linarith
        have h4 : k + 2 < n := by exact_mod_cast h3
        omega
      have hS1 : (0:ℚ) ≤ ((1:ℕ):ℚ) + 1
          - ((1:ℕ):ℚ)*(((1:ℕ):ℚ)+1)*(((1:ℕ):ℚ)+2)/(6 * Vq n k) := by
        push_cast
        have hdiv : (1:ℚ)*(1+1)*(1+2)/(6 * Vq n k) ≤ 2 := by
          rw [div_le_iff₀ (by positivity)]
          nlinarith
        linarith
      have hmaster := tail_lower_master n k 3 1 hk1 hkn (by omega) (by omega)
        (by omega) (by omega) hS1
      have hcollapse : ((1 - Vq n k / (((3:ℕ):ℚ)+1)^2) / (2*((3:ℕ):ℚ)+1))
          * ((((1:ℕ):ℚ)+1) - ((1:ℕ):ℚ)*(((1:ℕ):ℚ)+1)*(((1:ℕ):ℚ)+2)/(6 * Vq n k))
          = ((16 - Vq n k) * (2*Vq n k - 1)) / (112 * Vq n k) := by
        push_cast
        field_simp
        ring
      rw [hcollapse] at hmaster
      have hnum : (1587/10000 : ℚ) ≤ ((16 - Vq n k) * (2*Vq n k - 1)) / (112 * Vq n k) := by
        rw [le_div_iff₀ (by positivity)]
        nlinarith [mul_nonneg (by linarith : (0:ℚ) ≤ Vq n k - 2)
          (by linarith : (0:ℚ) ≤ 4 - Vq n k)]
      linarith
    · -- region C: large variance, window and series length scale with sqrt(2V)
      have hkq4 : (4:ℚ) < k := lt_trans hB hVk
      have haq4 : (4:ℚ) < (n:ℚ) - k := lt_trans hB hVa
      set m := k * (n - k) / n with hm_def
      have hVcast : Vq n k = ((k * (n - k) : ℕ) : ℚ) / n := by
        rw [Vq]
        have hnk : ((n - k : ℕ) : ℚ) = (n:ℚ) - k := Nat.cast_sub (by omega)
        push_cast [hnk]
        ring_nf
      have hmle : (m:ℚ) ≤ Vq n k := by
        rw [hVcast, hm_def]
        exact Nat.cast_div_le
      have hmgt : Vq n k < (m:ℚ) + 1 := by
        have hdm : n * m + (k * (n - k)) % n = k * (n - k) := by
          rw [hm_def]
          exact Nat.div_add_mod _ _
        have hr := Nat.mod_lt (k * (n - k)) (show 0 < n by omega)
        have hlt : k * (n - k) < n * (m + 1) := by
          have he : n * (m + 1) = n * m + n := by ring
          omega
        have hcast : ((k * (n - k) : ℕ) : ℚ) < n * ((m:ℚ) + 1) := by
          exact_mod_cast hlt
        rw [hVcast, div_lt_iff₀ hn0]
        linarith
      have hm4 : 4 ≤ m := by
        have h3 : ((3:ℕ):ℚ) < (m:ℚ) := by push_cast; linarith
        have h4 : (3:ℕ) < m := by exact_mod_cast h3
        omega
      set J := Nat.sqrt (2*m) with hJ_def
      set W := 5*J/4 with hW_def
      have hJsq : J * J ≤ 2*m := by
        have h := Nat.sqrt_le' (2*m)
        rw [pow_two] at h
        rw [hJ_def]
        exact h
      have hJsq2 : 2*m < (J+1) * (J+1) := by
        have h := Nat.lt_succ_sqrt' (2*m)
        rw [pow_two] at h
        rw [hJ_def]
        exact h
      have hJ2 : 2 ≤ J := by
        rw [hJ_def]
        exact Nat.le_sqrt.mpr (by omega)
      have hJq2 : (2:ℚ) ≤ (J:ℚ) := by exact_mod_cast hJ2
      have hJ2q : ((J:ℚ))^2 ≤ 2 * Vq n k := by
        have h1 : ((J*J : ℕ) : ℚ) ≤ ((2*m : ℕ) : ℚ) := by exact_mod_cast hJsq
        push_cast at h1
        nlinarith [hmle]
      have hJ3q : 2 * Vq n k ≤ ((J:ℚ)+1)^2 + 1 := by
        have h1 : ((2*m : ℕ) : ℚ) + 1 ≤ (((J+1)*(J+1) : ℕ) : ℚ) := by
          exact_mod_cast hJsq2
        push_cast at h1
        nlinarith [hmgt]
      have hW2 : 4*W ≤ 5*J := by
        rw [hW_def]
        calc 4 * (5*J/4) = 5*J/4*4 := by ring
          _ ≤ 5*J := Nat.div_mul_le_self (5*J) 4
      have hW1 : 5*J ≤ 4*W + 3 := by
        have hdm := Nat.div_add_mod (5*J) 4
        have hr : (5*J) % 4 < 4 := Nat.mod_lt _ (by omega)
        rw [hW_def]
        omega
      have hW2q : 4*(W:ℚ) ≤ 5*(J:ℚ) := by exact_mod_cast hW2
      have hW1q : 5*(J:ℚ) - 3 ≤ 4*(W:ℚ) := by
        have h1 : ((5*J : ℕ) : ℚ) ≤ ((4*W + 3 : ℕ) : ℚ) := by exact_mod_cast hW1
        push_cast at h1
        linarith
      have hJk : J ≤ k := by
        by_contra hcon
        push_neg at hcon
        have h1 : (k:ℚ) + 1 ≤ J := by exact_mod_cast hcon
        nlinarith [hJ2q, hVk, hk0]
      have hJa : k + J ≤ n := by
        by_contra hcon
        push_neg at hcon
        have h0 : n - k + 1 ≤ J := by omega
        have h1 : ((n:ℚ)) - k + 1 ≤ J := by
          have hc : ((n - k : ℕ) : ℚ) = (n:ℚ) - k := Nat.cast_sub (by omega)
          have h2 : ((n - k + 1 : ℕ) : ℚ) ≤ (J:ℚ) := by exact_mod_cast h0
          push_cast [hc] at h2
          linarith
        nlinarith [hJ2q, hVa, ha0]
      have hWk : W ≤ k := by
        by_contra hcon
        push_neg at hcon
        have h1 : (k:ℚ) + 1 ≤ W := by exact_mod_cast hcon
        nlinarith [hJ2q, hVk, hk0, hW2q]
      have hWa : k + W ≤ n := by
        by_contra hcon
        push_neg at hcon
        have h0 : n - k + 1 ≤ W := by omega
        have h1 : ((n:ℚ)) - k + 1 ≤ W := by
          have hc : ((n - k : ℕ) : ℚ) = (n:ℚ) - k := Nat.cast_sub (by omega)
          have h2 : ((n - k + 1 : ℕ) : ℚ) ≤ (W:ℚ) := by exact_mod_cast h0
          push_cast [hc] at h2
          linarith
        nlinarith [hJ2q, hVa, ha0, hW2q]
      have h66 : (J:ℚ)*((J:ℚ)+2) ≤ 6 * Vq n k := by
        nlinarith [hJ2q, sq_nonneg ((J:ℚ)-1), hB]
      have hS : (0:ℚ) ≤ ((J:ℚ)+1) - (J:ℚ)*((J:ℚ)+1)*((J:ℚ)+2)/(6 * Vq n k) := by
        rw [sub_nonneg, div_le_iff₀ (by positivity)]
        nlinarith [mul_le_mul_of_nonneg_left h66
          (show (0:ℚ) ≤ (J:ℚ)+1 by linarith)]
      have hcross := regionC_core (Vq n k) (J:ℚ) (W:ℚ) hJq2 hJ2q hJ3q hW1q hW2q
        (le_of_lt hB)
      have hBS := BS_bridge (Vq n k) J W hV0 hcross
      have hmaster := tail_lower_master n k W J hk1 hkn hWk hWa hJa hJk hS
      linarith

theorem binomPmf_reflect (n i : ℕ) (p : ℚ) (hi : i ≤ n) :
    binomPmf n p i = binomPmf n (1-p) (n-i) := by
  unfold binomPmf
  rw [Nat.choose_symm hi, Nat.sub_sub_self hi, sub_sub_cancel]
  ring

theorem one_sub_pOf_sub (n k : ℕ) (h0 : 0 < n) (hk : k ≤ n) :
    1 - pOf n (n-k) = pOf n k := by
  unfold pOf
  rw [Nat.cast_sub hk]
  have hn : (n:ℚ) ≠ 0 := by positivity
  field_simp

theorem cdf_ge_main (n k : ℕ) (hk1 : 1 ≤ k) (hkn : k + 1 ≤ n) :
    (1587/10000 : ℚ) ≤ ∑ i ∈ Finset.range (k+1), binomPmf n (pOf n k) i := by
  have hk' : 1 ≤ n - k := by omega
  have hk'n : (n - k) + 1 ≤ n := by omega
  have htail := tail_ge_main n (n-k) hk' hk'n
  have hswap : ∑ i ∈ Finset.Icc (n-k) n, binomPmf n (pOf n (n-k)) i
      = ∑ j ∈ Finset.range (k+1), binomPmf n (pOf n k) j := by
    apply Finset.sum_nbij' (fun i => n - i) (fun j => n - j)
    · intro a ha
      simp only [Finset.mem_Icc] at ha
      simp only [Finset.mem_range]
      omega
    · intro a ha
      simp only [Finset.mem_range] at ha
      simp only [Finset.mem_Icc]
      omega
    · intro a ha
      simp only [Finset.mem_Icc] at ha
      omega
    · intro a ha
      simp only [Finset.mem_range] at ha
      omega
    · intro a ha
      simp only [Finset.mem_Icc] at ha
      rw [binomPmf_reflect n a (pOf n (n-k)) ha.2,
        one_sub_pOf_sub n k (by omega) (by omega)]
  rw [hswap] at htail
  exact htail

theorem cdf_km1_le (n k : ℕ) (hk1 : 1 ≤ k) (hkn : k + 1 ≤ n) :
    ∑ i ∈ Finset.range k, binomPmf n (pOf n k) i ≤ 8413/10000 := by
  have htail := tail_ge_main n k hk1 hkn
  have htot := binomPmf_sum n (pOf n k)
  have hsplit : ∑ i ∈ Finset.range k, binomPmf n (pOf n k) i
      + ∑ i ∈ Finset.Icc k n, binomPmf n (pOf n k) i
      = ∑ i ∈ Finset.range (n+1), binomPmf n (pOf n k) i := by
    rw [Finset.range_eq_Ico, ← Nat.Ico_succ_right]
    exact Finset.sum_Ico_consecutive _ (by omega) (by omega)
  linarith

/-- Modelled from the spec: the body of `SpinePurity.reduce` is not present under
`src/` (`src/spineplot/purity.py` ends at the call site in `SpinePurity.draw`
and imports `binom` from `scipy.stats`); the spec prescribes the exact binomial
cumulative distribution used by the binomial quantile method. -/
def binomCdf (n : ℕ) (p : ℚ) (m : ℕ) : ℚ :=
  ∑ i ∈ Finset.range (m+1), binomPmf n p i

/-- Modelled from the spec: the percent-point function (quantile) of the
binomial distribution, the smallest count whose cumulative probability reaches
`q`, as used by the exact binomial quantile method the spec prescribes for the
missing `SpinePurity.reduce` body. -/
def binomPpf (n : ℕ) (p q : ℚ) : ℕ :=
  if h : ((Finset.range (n+1)).filter (fun m => q ≤ binomCdf n p m)).Nonempty then
    ((Finset.range (n+1)).filter (fun m => q ≤ binomCdf n p m)).min' h
  else n

/-- Modelled from the spec: `SpinePurity.reduce` (body absent from `src/`)
returns the central value `num/denom` together with the exact two-sided
binomial interval at the given significance: count quantiles at
`(1-significance)/2` and `(1+significance)/2` scaled by the trial count. -/
def reduceCI (num denom : ℕ) (significance : ℚ) : ℚ × ℚ × ℚ :=
  ((num : ℚ) / denom,
   (binomPpf denom ((num : ℚ) / denom) ((1 - significance)/2) : ℚ) / denom,
   (binomPpf denom ((num : ℚ) / denom) ((1 + significance)/2) : ℚ) / denom)

theorem binomPpf_le_n (n : ℕ) (p q : ℚ) : binomPpf n p q ≤ n := by
  unfold binomPpf
  split_ifs with h
  · have hmem := Finset.min'_mem _ h
    simp only [Finset.mem_filter, Finset.mem_range] at hmem
    omega
  · exact le_refl n

theorem binomPpf_le (n m : ℕ) (p q : ℚ) (hm : m ≤ n) (hq : q ≤ binomCdf n p m) :
    binomPpf n p q ≤ m := by
  have hmem : m ∈ (Finset.range (n+1)).filter (fun j => q ≤ binomCdf n p j) := by
    simp only [Finset.mem_filter, Finset.mem_range]
    exact ⟨by omega, hq⟩
  unfold binomPpf
  rw [dif_pos ⟨m, hmem⟩]
  exact Finset.min'_le _ m hmem

theorem le_binomPpf (n m : ℕ) (p q : ℚ) (hmn : m ≤ n)
    (hlt : ∀ j, j < m → binomCdf n p j < q) : m ≤ binomPpf n p q := by
  unfold binomPpf
  split_ifs with h
  · apply Finset.le_min'
    intro y hy
    simp only [Finset.mem_filter, Finset.mem_range] at hy
    by_contra hc
    push_neg at hc
    exact absurd hy.2 (not_le.mpr (hlt y hc))
  · exact hmn

theorem binomCdf_mono (n : ℕ) (p : ℚ) (hp0 : 0 ≤ p) (hp1 : p ≤ 1) {a b : ℕ}
    (hab : a ≤ b) : binomCdf n p a ≤ binomCdf n p b := by
  unfold binomCdf
  apply Finset.sum_le_sum_of_subset_of_nonneg
  · exact Finset.range_subset.mpr (by omega)
  · intro i _ _
    exact binomPmf_nonneg hp0 hp1 i

theorem binomCdf_zero_p (n : ℕ) : binomCdf n 0 0 = 1 := by
  unfold binomCdf binomPmf
  simp

theorem binomCdf_one_p (n m : ℕ) (hm : m < n) : binomCdf n 1 m = 0 := by
  unfold binomCdf
  apply Finset.sum_eq_zero
  intro i hi
  simp only [Finset.mem_range] at hi
  unfold binomPmf
  rw [sub_self, zero_pow (by omega : n - i ≠ 0)]
  ring

/-- C1: for every group and cut position, i.e. for every pair of counts
`num ≤ denom` with `denom > 0`, the confidence interval computed by the
purity engine at significance `0.6827` by the exact binomial quantile method
satisfies `lower ≤ point_estimate ≤ upper` with both bounds in `[0,1]`. -/
theorem C1_confidence_interval (num denom : ℕ) (h1 : 0 < denom) (h2 : num ≤ denom) :
    0 ≤ (reduceCI num denom (6827/10000)).2.1 ∧
    (reduceCI num denom (6827/10000)).2.1 ≤ (reduceCI num denom (6827/10000)).1 ∧
    (reduceCI num denom (6827/10000)).1 ≤ (reduceCI num denom (6827/10000)).2.2 ∧
    (reduceCI num denom (6827/10000)).2.2 ≤ 1 := by
  have hd0 : (0:ℚ) < denom := by exact_mod_cast h1
  have hp0 : (0:ℚ) ≤ (num:ℚ)/denom := by positivity
  have hp1 : (num:ℚ)/denom ≤ 1 := by
    rw [div_le_one hd0]
    exact_mod_cast h2
  have hpOf : pOf denom num = (num:ℚ)/denom := rfl
  have hql : ((1:ℚ) - 6827/10000)/2 = 3173/20000 := by norm_num
  have hqh : ((1:ℚ) + 6827/10000)/2 = 16827/20000 := by norm_num
  -- the lower quantile never exceeds the observed count
  have hlo_le : binomPpf denom ((num:ℚ)/denom) (((1:ℚ) - 6827/10000)/2) ≤ num := by
    rcases Nat.eq_or_lt_of_le h2 with heq | hlt
    · rw [heq]
      exact binomPpf_le_n denom _ _
    · rcases Nat.eq_zero_or_pos num with h0 | hpos
      · subst h0
        apply binomPpf_le denom 0 _ _ (by omega)
        rw [hql]
        simp only [Nat.cast_zero, zero_div]
        rw [binomCdf_zero_p]
        norm_num
      · apply binomPpf_le denom num _ _ (by omega)
        have hcdf := cdf_ge_main denom num hpos (by omega)
        rw [hpOf] at hcdf
        rw [hql]
        calc (3173/20000 : ℚ) ≤ 1587/10000 := by norm_num
          _ ≤ binomCdf denom ((num:ℚ)/denom) num := hcdf
  -- the upper quantile is at least the observed count
  have hhi_ge : num ≤ binomPpf denom ((num:ℚ)/denom) (((1:ℚ) + 6827/10000)/2) := by
    rcases Nat.eq_zero_or_pos num with h0 | hpos
    · omega
    · apply le_binomPpf denom num _ _ h2
      intro j hj
      rw [hqh]
      rcases Nat.eq_or_lt_of_le h2 with heq | hlt
      · have hone : (num:ℚ)/denom = 1 := by
          rw [heq, div_self (ne_of_gt hd0)]
        rw [hone, binomCdf_one_p denom j (by omega)]
        norm_num
      · have hmono := binomCdf_mono denom ((num:ℚ)/denom) hp0 hp1
          (show j ≤ num - 1 by omega)
        have hcdf : binomCdf denom ((num:ℚ)/denom) (num - 1) ≤ 8413/10000 := by
          have h := cdf_km1_le denom num hpos (by omega)
          rw [hpOf] at h
          unfold binomCdf
          rw [show num - 1 + 1 = num by omega]
          exact h
        calc binomCdf denom ((num:ℚ)/denom) j
            ≤ binomCdf denom ((num:ℚ)/denom) (num - 1) := hmono
          _ ≤ 8413/10000 := hcdf
          _ < 16827/20000 := by norm_num
  have hhi_len : binomPpf denom ((num:ℚ)/denom) (((1:ℚ) + 6827/10000)/2) ≤ denom :=
    binomPpf_le_n denom _ _
  unfold reduceCI
  refine ⟨by positivity, ?_, ?_, ?_⟩
  · exact div_le_div_of_nonneg_right (by exact_mod_cast hlo_le) hd0.le
  · exact div_le_div_of_nonneg_right (by exact_mod_cast hhi_ge) hd0.le
  · rw [div_le_one hd0]
    exact_mod_cast hhi_len

theorem C1_confidence_interval_witness :
    0 ≤ (reduceCI 1 2 (6827/10000)).2.1 ∧
    (reduceCI 1 2 (6827/10000)).2.1 ≤ (reduceCI 1 2 (6827/10000)).1 ∧
    (reduceCI 1 2 (6827/10000)).1 ≤ (reduceCI 1 2 (6827/10000)).2.2 ∧
    (reduceCI 1 2 (6827/10000)).2.2 ≤ 1 :=
  C1_confidence_interval 1 2 (by norm_num) (by norm_num)

end SpineAnaplot
